import Mathlib

/-!
Verification of the timewinder state-tree hashing module
(`timewinder/statetree/tree.py`) and of the evaluator behaviour exercised by
`tests/test_telltale.py`.

Byte strings are modelled as `List Nat` (each entry one byte value).  Python
`str` values are modelled by their UTF-8 byte sequences; Python's code-point
comparison on `str` coincides with lexicographic comparison of the UTF-8
bytes, so ordering is preserved by this representation.
-/

namespace Timewinder

/-- A byte string (Python `bytes`, or the UTF-8 encoding of a `str`). -/
abbrev Bytes := List Nat

/-- Dictionary keys in a state tree are Python strings, modelled by their
UTF-8 bytes. -/
abbrev Key := Bytes

/-- Python `bytes.__lt__`: lexicographic comparison, a strict prefix being
smaller. -/
def bytesLt : Bytes → Bytes → Bool
  | [], [] => false
  | [], _ :: _ => true
  | _ :: _, [] => false
  | a :: as, b :: bs =>
    if a < b then true
    else if b < a then false
    else bytesLt as bs

/-- The values that can appear in a state tree handed to the hashing
functions of `tree.py`.  `str` carries the UTF-8 bytes of a Python string,
`float` the IEEE-754 bit pattern of a Python float, `hash` the raw bytes
wrapped by a `Hash` object.  `ndset` stands for a `NonDeterministicSet`
instance (an opaque class as far as `tree.py` is concerned) and `other`
for any further Python object msgpack cannot serialize natively. -/
inductive Value where
  | nil : Value
  | bool : Bool → Value
  | int : Int → Value
  | float : Nat → Value
  | str : Bytes → Value
  | bytes : Bytes → Value
  | hash : Bytes → Value
  | ndset : Value
  | other : Value
  | list : List Value → Value
  | dict : List (Key × Value) → Value

/-- `_is_deep_type`: `isinstance(v, (dict, list, NonDeterministicSet))`. -/
def _is_deep_type : Value → Bool
  | .dict _ => true
  | .list _ => true
  | .ndset => true
  | _ => false

/-- Failure modes of serialization and hashing, mapping the Python
exceptions: `encodingError` is the `TypeError` raised by
`msgpack_ext_default` for a value msgpack cannot serialize (the spec's
`EncodingError`); `valueError` is msgpack's overflow error for containers or
byte strings too long for any msgpack header; `notATree` is the
`TypeError("Can only hash dicts or lists")` raised by `hash_flat_tree`. -/
inductive TreeError where
  | encodingError : TreeError
  | valueError : TreeError
  | notATree : TreeError
  deriving DecidableEq, Repr

/-- Big-endian 16-bit encoding. -/
def be16 (n : Nat) : Bytes := [n / 256 % 256, n % 256]

/-- Big-endian 32-bit encoding. -/
def be32 (n : Nat) : Bytes :=
  [n / 16777216 % 256, n / 65536 % 256, n / 256 % 256, n % 256]

/-- Big-endian 64-bit encoding. -/
def be64 (n : Nat) : Bytes :=
  [n / 72057594037927936 % 256, n / 281474976710656 % 256,
   n / 1099511627776 % 256, n / 4294967296 % 256,
   n / 16777216 % 256, n / 65536 % 256, n / 256 % 256, n % 256]

/-- msgpack header for an `ExtType(1, data)` payload of length `n` followed
by the payload, as produced by `msgpack.Packer` for the `ExtType` returned
by `msgpack_ext_default` on a `Hash` (fixext for lengths 1/2/4/8/16, else
ext8/ext16/ext32, type byte `1`). -/
def packExt1 (data : Bytes) : Except TreeError Bytes :=
  let n := data.length
  if n = 1 then .ok ([0xd4, 1] ++ data)
  else if n = 2 then .ok ([0xd5, 1] ++ data)
  else if n = 4 then .ok ([0xd6, 1] ++ data)
  else if n = 8 then .ok ([0xd7, 1] ++ data)
  else if n = 16 then .ok ([0xd8, 1] ++ data)
  else if n < 256 then .ok ([0xc7, n, 1] ++ data)
  else if n < 65536 then .ok ([0xc8] ++ be16 n ++ [1] ++ data)
  else if n < 4294967296 then .ok ([0xc9] ++ be32 n ++ [1] ++ data)
  else .error .valueError

/-- msgpack encoding of a Python int, smallest canonical format
(fixint / uint8‑64 / int8‑64); integers outside `[-2^63, 2^64)` are handed
to the `default` hook, where `msgpack_ext_default` raises its `TypeError`. -/
def packInt (i : Int) : Except TreeError Bytes :=
  if 0 ≤ i ∧ i < 128 then .ok [i.toNat]
  else if -32 ≤ i ∧ i < 0 then .ok [(i + 256).toNat]
  else if 128 ≤ i ∧ i < 256 then .ok [0xcc, i.toNat]
  else if 256 ≤ i ∧ i < 65536 then .ok ([0xcd] ++ be16 i.toNat)
  else if 65536 ≤ i ∧ i < 4294967296 then .ok ([0xce] ++ be32 i.toNat)
  else if 4294967296 ≤ i ∧ i < 18446744073709551616 then
    .ok ([0xcf] ++ be64 i.toNat)
  else if -128 ≤ i ∧ i < -32 then .ok [0xd0, (i + 256).toNat]
  else if -32768 ≤ i ∧ i < -128 then .ok ([0xd1] ++ be16 (i + 65536).toNat)
  else if -2147483648 ≤ i ∧ i < -32768 then
    .ok ([0xd2] ++ be32 (i + 4294967296).toNat)
  else if -9223372036854775808 ≤ i ∧ i < -2147483648 then
    .ok ([0xd3] ++ be64 (i + 18446744073709551616).toNat)
  else .error .encodingError

/-- msgpack encoding of a `str` payload (fixstr / str8 / str16 / str32). -/
def packStr (s : Bytes) : Except TreeError Bytes :=
  let n := s.length
  if n < 32 then .ok ((0xa0 + n) :: s)
  else if n < 256 then .ok ([0xd9, n] ++ s)
  else if n < 65536 then .ok ([0xda] ++ be16 n ++ s)
  else if n < 4294967296 then .ok ([0xdb] ++ be32 n ++ s)
  else .error .valueError

/-- msgpack encoding of a `bytes` payload (bin8 / bin16 / bin32). -/
def packBin (b : Bytes) : Except TreeError Bytes :=
  let n := b.length
  if n < 256 then .ok ([0xc4, n] ++ b)
  else if n < 65536 then .ok ([0xc5] ++ be16 n ++ b)
  else if n < 4294967296 then .ok ([0xc6] ++ be32 n ++ b)
  else .error .valueError

/-- msgpack array header (fixarray / array16 / array32). -/
def arrayHeader (n : Nat) : Except TreeError Bytes :=
  if n < 16 then .ok [0x90 + n]
  else if n < 65536 then .ok ([0xdc] ++ be16 n)
  else if n < 4294967296 then .ok ([0xdd] ++ be32 n)
  else .error .valueError

/-- msgpack map header (fixmap / map16 / map32). -/
def mapHeader (n : Nat) : Except TreeError Bytes :=
  if n < 16 then .ok [0x80 + n]
  else if n < 65536 then .ok ([0xde] ++ be16 n)
  else if n < 4294967296 then .ok ([0xdf] ++ be32 n)
  else .error .valueError

mutual

/-- The serialization performed by the module-level
`msgpack.Packer(default=msgpack_ext_default)`: nil/bool/int/float/str/bytes
in their canonical msgpack formats, nested lists and dicts packed
recursively in their given order, `Hash` through the `default` hook as
`ExtType(1, bytes)`, and any other object (`NonDeterministicSet` included)
failing with the hook's `TypeError` (`encodingError`). -/
def packVal : Value → Except TreeError Bytes
  | .nil => .ok [0xc0]
  | .bool false => .ok [0xc2]
  | .bool true => .ok [0xc3]
  | .int i => packInt i
  | .float bits => .ok ([0xcb] ++ be64 bits)
  | .str s => packStr s
  | .bytes b => packBin b
  | .hash b => packExt1 b
  | .ndset => .error .encodingError
  | .other => .error .encodingError
  | .list l =>
    match arrayHeader l.length with
    | .error e => .error e
    | .ok hd =>
      match packList l with
      | .error e => .error e
      | .ok body => .ok (hd ++ body)
  | .dict d =>
    match mapHeader d.length with
    | .error e => .error e
    | .ok hd =>
      match packPairs d with
      | .error e => .error e
      | .ok body => .ok (hd ++ body)

/-- Concatenated encodings of the elements of a list, in order (the first
failure propagates, like the Python exception). -/
def packList : List Value → Except TreeError Bytes
  | [] => .ok []
  | v :: vs =>
    match packVal v with
    | .error e => .error e
    | .ok b =>
      match packList vs with
      | .error e => .error e
      | .ok rest => .ok (b ++ rest)

/-- Concatenated encodings of key/value pairs, keys packed as msgpack
strings, in the order given. -/
def packPairs : List (Key × Value) → Except TreeError Bytes
  | [] => .ok []
  | (k, v) :: rest =>
    match packStr k with
    | .error e => .error e
    | .ok kb =>
      match packVal v with
      | .error e => .error e
      | .ok vb =>
        match packPairs rest with
        | .error e => .error e
        | .ok rb => .ok (kb ++ vb ++ rb)

end

/-! ### SHA-256 (`hashlib.sha256`), over byte lists -/

/-- Rotate a 32-bit word right by `n`. -/
def rotr (n x : Nat) : Nat := ((x >>> n) ||| (x <<< (32 - n))) % 4294967296

/-- The SHA-256 round constants. -/
def shaK : List Nat :=
  [1116352408, 1899447441, 3049323471, 3921009573, 961987163, 1508970993,
   2453635748, 2870763221, 3624381080, 310598401, 607225278, 1426881987,
   1925078388, 2162078206, 2614888103, 3248222580, 3835390401, 4022224774,
   264347078, 604807628, 770255983, 1249150122, 1555081692, 1996064986,
   2554220882, 2821834349, 2952996808, 3210313671, 3336571891, 3584528711,
   113926993, 338241895, 666307205, 773529912, 1294757372, 1396182291,
   1695183700, 1986661051, 2177026350, 2456956037, 2730485921, 2820302411,
   3259730800, 3345764771, 3516065817, 3600352804, 4094571909, 275423344,
   430227734, 506948616, 659060556, 883997877, 958139571, 1322822218,
   1537002063, 1747873779, 1955562222, 2024104815, 2227730452, 2361852424,
   2428436474, 2756734187, 3204031479, 3329325298]

/-- The eight 32-bit words of SHA-256 working state. -/
structure Sha256State where
  a : Nat
  b : Nat
  c : Nat
  d : Nat
  e : Nat
  f : Nat
  g : Nat
  h : Nat

/-- SHA-256 initial state. -/
def shaInit : Sha256State :=
  ⟨1779033703, 3144134277, 1013904242, 2773480762,
   1359893119, 2600822924, 528734635, 1541459225⟩

/-- The first 16 message-schedule words of a 64-byte block (big-endian). -/
def blockWords (block : Bytes) : List Nat :=
  (List.range 16).map fun j =>
    block.getD (4 * j) 0 % 256 * 16777216 + block.getD (4 * j + 1) 0 % 256 * 65536 +
      block.getD (4 * j + 2) 0 % 256 * 256 + block.getD (4 * j + 3) 0 % 256

/-- Extend the message schedule by `n` further words. -/
def extendWords : List Nat → Nat → List Nat
  | ws, 0 => ws
  | ws, n + 1 =>
    let len := ws.length
    let w15 := ws.getD (len - 15) 0
    let w2 := ws.getD (len - 2) 0
    let s0 := rotr 7 w15 ^^^ rotr 18 w15 ^^^ (w15 >>> 3)
    let s1 := rotr 17 w2 ^^^ rotr 19 w2 ^^^ (w2 >>> 10)
    let w := (ws.getD (len - 16) 0 + s0 + ws.getD (len - 7) 0 + s1) % 4294967296
    extendWords (ws ++ [w]) n

/-- The 64-word message schedule of one block. -/
def schedule (block : Bytes) : List Nat := extendWords (blockWords block) 48

/-- One SHA-256 compression round with constant/schedule pair `kw`. -/
def shaRound (st : Sha256State) (kw : Nat × Nat) : Sha256State :=
  let S1 := rotr 6 st.e ^^^ rotr 11 st.e ^^^ rotr 25 st.e
  let ch := (st.e &&& st.f) ^^^ ((st.e ^^^ 4294967295) &&& st.g)
  let temp1 := (st.h + S1 + ch + kw.1 + kw.2) % 4294967296
  let S0 := rotr 2 st.a ^^^ rotr 13 st.a ^^^ rotr 22 st.a
  let maj := (st.a &&& st.b) ^^^ (st.a &&& st.c) ^^^ (st.b &&& st.c)
  let temp2 := (S0 + maj) % 4294967296
  ⟨(temp1 + temp2) % 4294967296, st.a, st.b, st.c,
   (st.d + temp1) % 4294967296, st.e, st.f, st.g⟩

/-- Compress one 64-byte block into the running state. -/
def compressBlock (st : Sha256State) (block : Bytes) : Sha256State :=
  let fin := (shaK.zip (schedule block)).foldl shaRound st
  ⟨(st.a + fin.a) % 4294967296, (st.b + fin.b) % 4294967296,
   (st.c + fin.c) % 4294967296, (st.d + fin.d) % 4294967296,
   (st.e + fin.e) % 4294967296, (st.f + fin.f) % 4294967296,
   (st.g + fin.g) % 4294967296, (st.h + fin.h) % 4294967296⟩

/-- Split a padded message into 64-byte blocks. -/
def toBlocks (l : Bytes) : List Bytes :=
  if h : l = [] then []
  else l.take 64 :: toBlocks (l.drop 64)
termination_by l.length
decreasing_by
  simp only [List.length_drop]
  have := List.length_pos.mpr h
  omega

/-- Serialize the final state, big-endian. -/
def digestBytes (st : Sha256State) : Bytes :=
  be32 st.a ++ be32 st.b ++ be32 st.c ++ be32 st.d ++
    be32 st.e ++ be32 st.f ++ be32 st.g ++ be32 st.h

/-- `hashlib.sha256(msg).digest()`. -/
def sha256 (msg : Bytes) : Bytes :=
  let padded := msg ++ [0x80] ++ List.replicate ((119 - msg.length % 64) % 64) 0 ++
    be64 (8 * msg.length)
  digestBytes ((toBlocks padded).foldl compressBlock shaInit)

/-! ### The `Hash` class and the hashing entry points of `tree.py` -/

/-- The `Hash` class: a wrapper around a `bytes` fingerprint. -/
structure Hash where
  bytes : Bytes
  deriving DecidableEq, Repr

/-- `Hash.__eq__`: `isinstance(other, Hash) and self.bytes == other.bytes`
(pure byte comparison, no object identity). -/
def hashBEq (h1 h2 : Hash) : Bool := h1.bytes == h2.bytes

/-- `Hash.__lt__`: `self.bytes < other.bytes` (lexicographic on bytes). -/
def hashLt (h1 h2 : Hash) : Bool := bytesLt h1.bytes h2.bytes

/-- The comparison `sorted` uses on `tree.items()`: tuples compare by their
key component first; the keys of a Python dict are unique, so the value
components are never reached, and the sort is by key. -/
def keyLe (p q : Key × Value) : Prop := bytesLt q.1 p.1 = false

instance : DecidableRel keyLe := fun p q => decEq (bytesLt q.1 p.1) false

/-- `sorted(tree.items())` on the item list of a dict (unique keys). -/
def sortPairs (d : List (Key × Value)) : List (Key × Value) :=
  d.insertionSort keyLe

/-- `_serialize_tree`: `_packer.pack_map_pairs(sorted(tree.items()))`. -/
def _serialize_tree (d : List (Key × Value)) : Except TreeError Bytes :=
  match mapHeader (sortPairs d).length with
  | .error e => .error e
  | .ok hd =>
    match packPairs (sortPairs d) with
    | .error e => .error e
    | .ok body => .ok (hd ++ body)

/-- `_serialize_list`: `_packer.pack(l)`. -/
def _serialize_list (l : List Value) : Except TreeError Bytes :=
  packVal (.list l)

/-- `hash_flat_tree`: serialize a dict (sorted) or a list (positional),
raise `TypeError("Can only hash dicts or lists")` otherwise, and return the
`Hash` of the sha256 digest of the serialization. -/
def hash_flat_tree (tree : Value) : Except TreeError Hash :=
  match tree with
  | .dict d =>
    match _serialize_tree d with
    | .error e => .error e
    | .ok m => .ok ⟨sha256 m⟩
  | .list l =>
    match _serialize_list l with
    | .error e => .error e
    | .ok m => .ok ⟨sha256 m⟩
  | _ => .error .notATree

/-- `dict.__getitem__` on the modelled item list. -/
def dictLookup (d : List (Key × Value)) (k : Key) : Option Value :=
  (d.find? fun p => p.1 == k).map Prod.snd

/-- `non_flat_keys`: for a list, the indices (`Sum.inr`) whose element is a
dict, list or `NonDeterministicSet`; for a dict, the keys (`Sum.inl`) whose
value is one of those.  Defined on the `Union[list, dict]` domain of the
source; other inputs are not in its domain and yield `[]`. -/
def non_flat_keys : Value → List (Key ⊕ Nat)
  | .list l => (l.enum.filter fun p => _is_deep_type p.2).map fun p => .inr p.1
  | .dict d =>
    ((d.map Prod.fst).filter fun k =>
      match dictLookup d k with
      | some v => _is_deep_type v
      | none => false).map .inl
  | _ => []

/-! ### The recursive Merkle hashing driver -/

mutual

/-- Modelled from the spec: the recursive `hash(tree)` operation of §4.1.
The controller that walks the compound child positions (`non_flat_keys`),
resolves each compound child to its own `Hash` depth-first, substitutes the
`Hash` in place of the raw child, and hashes the resulting single-level
node with `hash_flat_tree` is not among the sources under `src/` — only its
primitives in `tree.py` are.  `hashTree` composes those primitives exactly
as the spec describes.  A top-level value that is not a mapping or a
sequence has no tree hash (mirroring `hash_flat_tree`'s `TypeError`). -/
def hashTree : Value → Except TreeError Hash
  | .dict d =>
    match substPairs d with
    | .error e => .error e
    | .ok d2 => hash_flat_tree (.dict d2)
  | .list l =>
    match substList l with
    | .error e => .error e
    | .ok l2 => hash_flat_tree (.list l2)
  | _ => .error .notATree

/-- Modelled from the spec: substitute each compound child of a mapping
node (per `_is_deep_type`, the predicate behind `non_flat_keys`) by the
`Hash` of that child. -/
def substPairs : List (Key × Value) → Except TreeError (List (Key × Value))
  | [] => .ok []
  | (k, v) :: rest =>
    if _is_deep_type v then
      match hashTree v with
      | .error e => .error e
      | .ok hv =>
        match substPairs rest with
        | .error e => .error e
        | .ok r2 => .ok ((k, .hash hv.bytes) :: r2)
    else
      match substPairs rest with
      | .error e => .error e
      | .ok r2 => .ok ((k, v) :: r2)

/-- Modelled from the spec: substitute each compound child of a sequence
node by the `Hash` of that child. -/
def substList : List Value → Except TreeError (List Value)
  | [] => .ok []
  | v :: rest =>
    if _is_deep_type v then
      match hashTree v with
      | .error e => .error e
      | .ok hv =>
        match substList rest with
        | .error e => .error e
        | .ok r2 => .ok (.hash hv.bytes :: r2)
    else
      match substList rest with
      | .error e => .error e
      | .ok r2 => .ok (v :: r2)

end

/-- Agreement of two child positions of a sequence node: both flat with
the same value, or both compound with the same subtree hash. -/
def AgreeVal (v w : Value) : Prop :=
  (_is_deep_type v = false ∧ _is_deep_type w = false ∧ v = w) ∨
    (_is_deep_type v = true ∧ _is_deep_type w = true ∧ hashTree v = hashTree w)

/-- Agreement of two entries of a mapping node: same key, and the values
agree as in `AgreeVal`. -/
def AgreePair (p q : Key × Value) : Prop :=
  p.1 = q.1 ∧ AgreeVal p.2 q.2

/-! ### The evaluator exercised by `tests/test_telltale.py`

The `Evaluator`, `step` decorator and `FuncProcess` live in the timewinder
core, which is not among the sources under `src/`; only `tests/`
exercises them.  The search engine below is therefore modelled from the
spec (§4.4 and §5): a frontier of configurations awaiting expansion, a
visited set keyed by configuration content (the spec's Hash contract makes
content stand for its hash), a distinct-state counter incremented on first
expansion, per-process step cursors, successor generation by running every
enabled process's next step, and immediate propagation of an assertion
failure.  The spec leaves the exploration order and the exact bound
accounting open (§9); this model expands the frontier in FIFO order and
charges the bound one unit per expansion step. -/

/-- The one tracked object of the tests (`A()`): its `foo` attribute,
initially unset. -/
abbrev ObjState := Option String

/-- A bound step: reads the shared object, asserts, writes; an assertion
failure is the error. -/
abbrev StepFn := ObjState → Except Unit ObjState

/-- A process: an ordered list of steps over the shared object. -/
abbrev Process := List StepFn

/-- Modelled from the spec: a Configuration — the snapshot of the tracked
object plus every process's step cursor. -/
structure Config where
  obj : ObjState
  cursors : List Nat
  deriving DecidableEq, Repr

/-- Modelled from the spec: `stats.states`, the count of distinct
configurations discovered. -/
structure EvalStats where
  states : Nat
  deriving DecidableEq, Repr

/-- Modelled from the spec: run process `i`'s next step on configuration
`c`; `none` when the process is finished (not enabled), an error when the
step's assertion fails. -/
def stepOf (procs : List Process) (c : Config) (i : Nat) :
    Option (Except Unit Config) :=
  match procs[i]?, c.cursors[i]? with
  | some steps, some cur =>
    match steps[cur]? with
    | some f =>
      match f c.obj with
      | .error e => some (.error e)
      | .ok s2 => some (.ok ⟨s2, c.cursors.set i (cur + 1)⟩)
    | none => none
  | _, _ => none

/-- Modelled from the spec: successors of `c` for the process indices
given, an assertion failure aborting the whole expansion. -/
def expandAux (procs : List Process) (c : Config) :
    List Nat → Except Unit (List Config)
  | [] => .ok []
  | i :: is =>
    match stepOf procs c i with
    | none => expandAux procs c is
    | some (.error e) => .error e
    | some (.ok c2) =>
      match expandAux procs c is with
      | .error e => .error e
      | .ok cs => .ok (c2 :: cs)

/-- Modelled from the spec: all successors of `c` (one per enabled
process). -/
def expand (procs : List Process) (c : Config) : Except Unit (List Config) :=
  expandAux procs c (List.range procs.length)

/-- Modelled from the spec: the Expand loop over Frontier/Visited.  Fuel is
the caller's step bound, charged one unit per loop step; exhaustion of the
frontier or of the bound is normal termination returning the distinct-state
count. -/
def loop (procs : List Process) :
    Nat → List Config → List Config → Nat → Except Unit Nat
  | 0, _, _, states => .ok states
  | _ + 1, [], _, states => .ok states
  | fuel + 1, c :: frontier, visited, states =>
    if c ∈ visited then loop procs fuel frontier visited states
    else
      match expand procs c with
      | .error e => .error e
      | .ok succs => loop procs fuel (frontier ++ succs) (c :: visited) (states + 1)

/-- Modelled from the spec: the initial configuration — the object's
attribute unset, every cursor at 0. -/
def initConfig (procs : List Process) : Config :=
  ⟨none, List.replicate procs.length 0⟩

/-- Modelled from the spec: `Evaluator(objects=[a], threads=...).evaluate(steps)`
followed by reading `stats.states`. -/
def evaluate (procs : List Process) (steps : Nat) : Except Unit EvalStats :=
  match loop procs steps [initConfig procs] [] 0 with
  | .error e => .error e
  | .ok n => .ok ⟨n⟩

/-- The step `t` of `test_multi_eval` and `test_assert_fail`:
`m.foo = "b"`. -/
def step_set_b : StepFn := fun _ => .ok (some "b")

/-- The step `x` of `test_multi_eval`: `assert m.foo == "b"; m.foo = "a"`. -/
def step_assert_b_set_a : StepFn := fun s =>
  if s = some "b" then .ok (some "a") else .error ()

/-- The step `x` of `test_assert_fail`: `assert m.foo == "b"`. -/
def step_assert_b : StepFn := fun s =>
  if s = some "b" then .ok s else .error ()

/-! ### Supported and unsupported leaf content (claims C3 and C10) -/

/-- A leaf value the canonical encoder cannot encode at all: an object of a
type msgpack does not handle natively and `msgpack_ext_default` rejects
(`NonDeterministicSet` or any other foreign object), or an integer outside
every msgpack integer format (also handed to the `default` hook, which
raises). -/
def isUnsupportedLeaf : Value → Bool
  | .ndset => true
  | .other => true
  | .int i => decide (i < -9223372036854775808 ∨ 18446744073709551616 ≤ i)
  | _ => false

/-- A supported flat leaf within msgpack's encodable ranges. -/
def isSupportedFlat : Value → Bool
  | .nil => true
  | .bool _ => true
  | .int i => decide (-9223372036854775808 ≤ i ∧ i < 18446744073709551616)
  | .float _ => true
  | .str s => decide (s.length < 4294967296)
  | .bytes b => decide (b.length < 4294967296)
  | .hash b => decide (b.length < 4294967296)
  | _ => false

/-- `Union[list, dict]` membership: the domain `hash_flat_tree` accepts. -/
def isTreeValue : Value → Bool
  | .list _ => true
  | .dict _ => true
  | _ => false

/-! ### A decoder for flat values, used to prove the msgpack encoding of a
flat value is prefix-determined (injective and self-delimiting). -/

/-- Big-endian 16-bit value of two bytes. -/
def val16 (a b : Nat) : Nat := a * 256 + b

/-- Big-endian 32-bit value of four bytes. -/
def val32 (a b c d : Nat) : Nat := ((a * 256 + b) * 256 + c) * 256 + d

/-- Big-endian 64-bit value of eight bytes. -/
def val64 (a b c d e f g h : Nat) : Nat :=
  ((((((a * 256 + b) * 256 + c) * 256 + d) * 256 + e) * 256 + f) * 256 + g) * 256 + h

/-- A flat (non-compound) serializable value whose float payload fits in 64
bits; the decoding argument is stated for these. -/
def isFlatWF : Value → Bool
  | .nil => true
  | .bool _ => true
  | .int _ => true
  | .float bits => decide (bits < 18446744073709551616)
  | .str _ => true
  | .bytes _ => true
  | .hash _ => true
  | _ => false

/-- Decoder for the msgpack encoding of one flat value at the head of a
byte stream; returns the value and the remaining bytes. -/
def unpackFlat : Bytes → Option (Value × Bytes)
  | [] => none
  | b :: rest =>
    if b < 0x80 then some (.int b, rest)
    else if 0xe0 ≤ b then some (.int ((b : Int) - 256), rest)
    else if b < 0xa0 then none
    else if b < 0xc0 then some (.str (rest.take (b - 0xa0)), rest.drop (b - 0xa0))
    else if b = 0xc0 then some (.nil, rest)
    else if b = 0xc2 then some (.bool false, rest)
    else if b = 0xc3 then some (.bool true, rest)
    else if b = 0xc4 then
      match rest with
      | n :: r => some (.bytes (r.take n), r.drop n)
      | [] => none
    else if b = 0xc5 then
      match rest with
      | n1 :: n2 :: r => some (.bytes (r.take (val16 n1 n2)), r.drop (val16 n1 n2))
      | _ => none
    else if b = 0xc6 then
      match rest with
      | n1 :: n2 :: n3 :: n4 :: r =>
        some (.bytes (r.take (val32 n1 n2 n3 n4)), r.drop (val32 n1 n2 n3 n4))
      | _ => none
    else if b = 0xc7 then
      match rest with
      | n :: t :: r => if t = 1 then some (.hash (r.take n), r.drop n) else none
      | _ => none
    else if b = 0xc8 then
      match rest with
      | n1 :: n2 :: t :: r =>
        if t = 1 then some (.hash (r.take (val16 n1 n2)), r.drop (val16 n1 n2))
        else none
      | _ => none
    else if b = 0xc9 then
      match rest with
      | n1 :: n2 :: n3 :: n4 :: t :: r =>
        if t = 1 then
          some (.hash (r.take (val32 n1 n2 n3 n4)), r.drop (val32 n1 n2 n3 n4))
        else none
      | _ => none
    else if b = 0xcb then
      match rest with
      | b1 :: b2 :: b3 :: b4 :: b5 :: b6 :: b7 :: b8 :: r =>
        some (.float (val64 b1 b2 b3 b4 b5 b6 b7 b8), r)
      | _ => none
    else if b = 0xcc then
      match rest with
      | n :: r => some (.int n, r)
      | [] => none
    else if b = 0xcd then
      match rest with
      | n1 :: n2 :: r => some (.int (val16 n1 n2), r)
      | _ => none
    else if b = 0xce then
      match rest with
      | n1 :: n2 :: n3 :: n4 :: r => some (.int (val32 n1 n2 n3 n4), r)
      | _ => none
    else if b = 0xcf then
      match rest with
      | n1 :: n2 :: n3 :: n4 :: n5 :: n6 :: n7 :: n8 :: r =>
        some (.int (val64 n1 n2 n3 n4 n5 n6 n7 n8), r)
      | _ => none
    else if b = 0xd0 then
      match rest with
      | n :: r => some (.int ((n : Int) - 256), r)
      | [] => none
    else if b = 0xd1 then
      match rest with
      | n1 :: n2 :: r => some (.int ((val16 n1 n2 : Int) - 65536), r)
      | _ => none
    else if b = 0xd2 then
      match rest with
      | n1 :: n2 :: n3 :: n4 :: r =>
        some (.int ((val32 n1 n2 n3 n4 : Int) - 4294967296), r)
      | _ => none
    else if b = 0xd3 then
      match rest with
      | n1 :: n2 :: n3 :: n4 :: n5 :: n6 :: n7 :: n8 :: r =>
        some (.int ((val64 n1 n2 n3 n4 n5 n6 n7 n8 : Int) - 18446744073709551616), r)
      | _ => none
    else if b = 0xd4 then
      match rest with
      | t :: r => if t = 1 then some (.hash (r.take 1), r.drop 1) else none
      | [] => none
    else if b = 0xd5 then
      match rest with
      | t :: r => if t = 1 then some (.hash (r.take 2), r.drop 2) else none
      | [] => none
    else if b = 0xd6 then
      match rest with
      | t :: r => if t = 1 then some (.hash (r.take 4), r.drop 4) else none
      | [] => none
    else if b = 0xd7 then
      match rest with
      | t :: r => if t = 1 then some (.hash (r.take 8), r.drop 8) else none
      | [] => none
    else if b = 0xd8 then
      match rest with
      | t :: r => if t = 1 then some (.hash (r.take 16), r.drop 16) else none
      | [] => none
    else if b = 0xd9 then
      match rest with
      | n :: r => some (.str (r.take n), r.drop n)
      | [] => none
    else if b = 0xda then
      match rest with
      | n1 :: n2 :: r => some (.str (r.take (val16 n1 n2)), r.drop (val16 n1 n2))
      | _ => none
    else if b = 0xdb then
      match rest with
      | n1 :: n2 :: n3 :: n4 :: r =>
        some (.str (r.take (val32 n1 n2 n3 n4)), r.drop (val32 n1 n2 n3 n4))
      | _ => none
    else none

/-- Strict key order on pairs, used to identify the two sorted item lists. -/
def keyLtStrict (p q : Key × Value) : Prop := bytesLt p.1 q.1 = true

/-! ### Order theory of `bytesLt` (Python `bytes` comparison) -/

theorem bytesLt_irrefl (a : Bytes) : bytesLt a a = false := by
  induction a with
  | nil => rfl
  | cons x xs ih => simp [bytesLt, ih]

theorem bytesLt_trans : ∀ a b c : Bytes,
    bytesLt a b = true → bytesLt b c = true → bytesLt a c = true := by
  intro a
  induction a with
  | nil =>
    intro b c hab hbc
    cases b with
    | nil => simp [bytesLt] at hab
    | cons y ys =>
      cases c with
      | nil => simp [bytesLt] at hbc
      | cons z zs => simp [bytesLt]
  | cons x xs ih =>
    intro b c hab hbc
    cases b with
    | nil => simp [bytesLt] at hab
    | cons y ys =>
      cases c with
      | nil => simp [bytesLt] at hbc
      | cons z zs =>
        simp only [bytesLt] at hab hbc ⊢
        split_ifs at hab hbc ⊢ with h1 h2 h3 h4 h5 h6 <;>
          first
          | rfl
          | omega
          | exact ih ys zs hab hbc

theorem bytesLt_trichotomy : ∀ a b : Bytes,
    a = b ∨ bytesLt a b = true ∨ bytesLt b a = true := by
  intro a
  induction a with
  | nil =>
    intro b
    cases b with
    | nil => exact .inl rfl
    | cons y ys => exact .inr (.inl rfl)
  | cons x xs ih =>
    intro b
    cases b with
    | nil => exact .inr (.inr rfl)
    | cons y ys =>
      rcases Nat.lt_trichotomy x y with h | h | h
      · refine .inr (.inl ?_)
        simp [bytesLt, h]
      · subst h
        rcases ih ys with h' | h' | h'
        · exact .inl (by rw [h'])
        · exact .inr (.inl (by simp [bytesLt, h']))
        · exact .inr (.inr (by simp [bytesLt, h']))
      · refine .inr (.inr ?_)
        simp [bytesLt, h]

theorem bytesLt_asymm {a b : Bytes} (h : bytesLt a b = true) : bytesLt b a = false := by
  by_contra hcon
  have hba : bytesLt b a = true := by
    cases hx : bytesLt b a with
    | false => exact absurd hx hcon
    | true => rfl
  have := bytesLt_trans a b a h hba
  rw [bytesLt_irrefl] at this
  exact Bool.false_ne_true this

instance : IsTotal (Key × Value) keyLe where
  total p q := by
    unfold keyLe
    cases h : bytesLt q.1 p.1 with
    | false => exact .inl rfl
    | true => exact .inr (bytesLt_asymm h)

instance : IsTrans (Key × Value) keyLe where
  trans p q r hpq hqr := by
    unfold keyLe at *
    cases h : bytesLt r.1 p.1 with
    | false => rfl
    | true =>
      exfalso
      rcases bytesLt_trichotomy r.1 q.1 with he | hlt | hgt
      · rw [he, hpq] at h
        exact absurd h (by decide)
      · rw [hqr] at hlt
        exact absurd hlt (by decide)
      · have h2 := bytesLt_trans q.1 r.1 p.1 hgt h
        rw [hpq] at h2
        exact absurd h2 (by decide)

instance : IsAntisymm (Key × Value) keyLtStrict where
  antisymm p q hpq hqp := by
    unfold keyLtStrict at *
    have := bytesLt_asymm hpq
    rw [this] at hqp
    exact absurd hqp (by simp)

theorem sorted_keyLtStrict_of_nodup {l : List (Key × Value)}
    (hs : l.Sorted keyLe) (hn : (l.map Prod.fst).Nodup) : l.Sorted keyLtStrict := by
  have hne : l.Pairwise fun p q : Key × Value => p.1 ≠ q.1 := List.pairwise_map.mp hn
  refine (hs.and hne).imp ?_
  intro p q h
  rcases bytesLt_trichotomy p.1 q.1 with he | hlt | hgt
  · exact absurd he h.2
  · exact hlt
  · have h1 : bytesLt q.1 p.1 = false := h.1
    rw [h1] at hgt
    exact absurd hgt (by simp)

/-- Two item lists with the same pairs (in any order) and duplicate-free
keys sort to the same list. -/
theorem sortPairs_eq_of_perm {d1 d2 : List (Key × Value)} (hperm : d1.Perm d2)
    (hnodup : (d1.map Prod.fst).Nodup) : sortPairs d1 = sortPairs d2 := by
  have hnodup2 : (d2.map Prod.fst).Nodup := (hperm.map Prod.fst).nodup_iff.mp hnodup
  have hs1 : (sortPairs d1).Sorted keyLe := List.sorted_insertionSort keyLe d1
  have hs2 : (sortPairs d2).Sorted keyLe := List.sorted_insertionSort keyLe d2
  have hn1 : ((sortPairs d1).map Prod.fst).Nodup :=
    (((List.perm_insertionSort keyLe d1)).map Prod.fst).nodup_iff.mpr hnodup
  have hn2 : ((sortPairs d2).map Prod.fst).Nodup :=
    (((List.perm_insertionSort keyLe d2)).map Prod.fst).nodup_iff.mpr hnodup2
  have hp12 : (sortPairs d1).Perm (sortPairs d2) :=
    ((List.perm_insertionSort keyLe d1).trans hperm).trans
      (List.perm_insertionSort keyLe d2).symm
  exact List.eq_of_perm_of_sorted hp12
    (sorted_keyLtStrict_of_nodup hs1 hn1) (sorted_keyLtStrict_of_nodup hs2 hn2)

/-- C1: For every mapping whose values are flat, hashing is independent of
key insertion order: two dicts holding the same key-value pairs, built in
any insertion order (modelled as permuted item lists with duplicate-free
keys), get an identical `Hash` from `hash_flat_tree`.  Taking `d2 = d1`
specializes to: hashing the same content twice yields the same `Hash`
(the embedding is a pure function — there is no randomness). -/
theorem hash_flat_tree_dict_insertion_order_invariant
    (d1 d2 : List (Key × Value)) (hperm : d1.Perm d2)
    (hnodup : (d1.map Prod.fst).Nodup) :
    hash_flat_tree (.dict d1) = hash_flat_tree (.dict d2) := by
  have h := sortPairs_eq_of_perm hperm hnodup
  simp only [hash_flat_tree, _serialize_tree, h]

/-- Witness for C1 at the two insertion orders of `{"a": 1, "b": 2}`. -/
theorem hash_flat_tree_dict_insertion_order_invariant_witness :
    ([([98], Value.int 2), ([97], Value.int 1)] : List (Key × Value)).Perm
        [([97], Value.int 1), ([98], Value.int 2)] ∧
      (([([98], Value.int 2), ([97], Value.int 1)] : List (Key × Value)).map
          Prod.fst).Nodup ∧
      hash_flat_tree (.dict [([98], Value.int 2), ([97], Value.int 1)]) =
        hash_flat_tree (.dict [([97], Value.int 1), ([98], Value.int 2)]) :=
  ⟨List.Perm.swap _ _ _, by decide,
    hash_flat_tree_dict_insertion_order_invariant _ _ (List.Perm.swap _ _ _) (by decide)⟩

/-- C4: `Hash` equality and ordering are defined purely over the raw bytes:
`==` holds iff the byte strings are equal (so two `Hash` values wrapping
equal bytes compare equal, regardless of how they were built), `<` holds
iff the bytes are lexicographically smaller, and `<` is a strict total
order (irreflexive, transitive, asymmetric, trichotomous). -/
theorem hash_eq_and_lt_are_over_raw_bytes :
    (∀ h1 h2 : Hash, hashBEq h1 h2 = true ↔ h1.bytes = h2.bytes) ∧
      (∀ h1 h2 : Hash, hashLt h1 h2 = true ↔ bytesLt h1.bytes h2.bytes = true) ∧
      (∀ h1 : Hash, hashLt h1 h1 = false) ∧
      (∀ h1 h2 h3 : Hash,
        hashLt h1 h2 = true → hashLt h2 h3 = true → hashLt h1 h3 = true) ∧
      (∀ h1 h2 : Hash, hashLt h1 h2 = true → hashLt h2 h1 = false) ∧
      (∀ h1 h2 : Hash, h1 = h2 ∨ hashLt h1 h2 = true ∨ hashLt h2 h1 = true) := by
  refine ⟨?_, ?_, ?_, ?_, ?_, ?_⟩
  · intro h1 h2
    simp [hashBEq]
  · intro h1 h2
    exact Iff.rfl
  · intro h1
    exact bytesLt_irrefl h1.bytes
  · intro h1 h2 h3 ha hb
    exact bytesLt_trans h1.bytes h2.bytes h3.bytes ha hb
  · intro h1 h2 ha
    exact bytesLt_asymm ha
  · intro h1 h2
    rcases bytesLt_trichotomy h1.bytes h2.bytes with he | hlt | hgt
    · exact .inl (by cases h1; cases h2; simpa using he)
    · exact .inr (.inl hlt)
    · exact .inr (.inr hgt)

/-- Witness for C4: transitivity and byte-equality applied at concrete
hashes. -/
theorem hash_eq_and_lt_are_over_raw_bytes_witness :
    hashLt ⟨[1]⟩ ⟨[2]⟩ = true ∧ hashLt ⟨[2]⟩ ⟨[3]⟩ = true ∧
      hashLt ⟨[1]⟩ ⟨[3]⟩ = true ∧ hashBEq ⟨[5, 6]⟩ ⟨[5, 6]⟩ = true :=
  ⟨by decide, by decide,
    hash_eq_and_lt_are_over_raw_bytes.2.2.2.1 ⟨[1]⟩ ⟨[2]⟩ ⟨[3]⟩ (by decide) (by decide),
    (hash_eq_and_lt_are_over_raw_bytes.1 ⟨[5, 6]⟩ ⟨[5, 6]⟩).mpr rfl⟩

/-- Under duplicate-free keys, `dictLookup` agrees with pair membership. -/
theorem dictLookup_eq_some_iff {d : List (Key × Value)} {k : Key} {v : Value}
    (hnodup : (d.map Prod.fst).Nodup) :
    dictLookup d k = some v ↔ (k, v) ∈ d := by
  induction d with
  | nil => simp [dictLookup]
  | cons p rest ih =>
    obtain ⟨pk, pv⟩ := p
    simp only [List.map_cons, List.nodup_cons] at hnodup
    by_cases hk : pk = k
    · subst hk
      constructor
      · intro h
        have hv : pv = v := by simpa [dictLookup] using h
        rw [← hv]
        exact List.mem_cons_self _ _
      · intro h
        rcases List.mem_cons.mp h with h | h
        · have hv : v = pv := (Prod.mk.injEq _ _ _ _).mp h |>.2
          simp [dictLookup, hv]
        · exact absurd (List.mem_map.mpr ⟨(pk, v), h, rfl⟩) hnodup.1
    · have hbeq : (pk == k) = false := beq_eq_false_iff_ne.mpr hk
      constructor
      · intro h
        have hrest : dictLookup rest k = some v := by
          simpa [dictLookup, hbeq] using h
        exact List.mem_cons_of_mem _ ((ih hnodup.2).mp hrest)
      · intro h
        rcases List.mem_cons.mp h with h | h
        · exact absurd ((Prod.mk.injEq _ _ _ _).mp h).1.symm hk
        · have hrest := (ih hnodup.2).mpr h
          simpa [dictLookup, hbeq] using hrest

/-- C7: `non_flat_keys` returns exactly the compound child positions: for a
list, precisely the indices whose element is a dict, list or
`NonDeterministicSet` (always tagged `Sum.inr`); for a dict with
duplicate-free keys, precisely the keys whose value is such a compound
(always tagged `Sum.inl`).  Flat positions are never returned. -/
theorem non_flat_keys_exactly_compound_positions :
    (∀ (l : List Value) (i : Nat),
        Sum.inr i ∈ non_flat_keys (.list l) ↔
          ∃ h : i < l.length, _is_deep_type l[i] = true) ∧
      (∀ (l : List Value) (x : Key ⊕ Nat), x ∈ non_flat_keys (.list l) →
        ∃ i, x = Sum.inr i) ∧
      (∀ (d : List (Key × Value)) (k : Key), (d.map Prod.fst).Nodup →
        (Sum.inl k ∈ non_flat_keys (.dict d) ↔
          ∃ v, (k, v) ∈ d ∧ _is_deep_type v = true)) ∧
      (∀ (d : List (Key × Value)) (x : Key ⊕ Nat), x ∈ non_flat_keys (.dict d) →
        ∃ k, x = Sum.inl k) := by
  refine ⟨?_, ?_, ?_, ?_⟩
  · intro l i
    simp only [non_flat_keys, List.mem_map, List.mem_filter]
    constructor
    · rintro ⟨⟨j, v⟩, ⟨hmem, hdeep⟩, hinj⟩
      obtain rfl : j = i := by simpa using hinj
      have hget : l[j]? = some v := List.mk_mem_enum_iff_getElem?.mp hmem
      obtain ⟨hlt, hv⟩ := List.getElem?_eq_some.mp hget
      refine ⟨hlt, ?_⟩
      rw [hv]
      simpa using hdeep
    · rintro ⟨hlt, hdeep⟩
      refine ⟨(i, l[i]), ⟨?_, by simpa using hdeep⟩, rfl⟩
      exact List.mk_mem_enum_iff_getElem?.mpr (List.getElem?_eq_getElem hlt)
  · intro l x hx
    simp only [non_flat_keys, List.mem_map] at hx
    obtain ⟨p, _, hp⟩ := hx
    exact ⟨p.1, hp.symm⟩
  · intro d k hnodup
    simp only [non_flat_keys, List.mem_map, List.mem_filter]
    constructor
    · rintro ⟨k', ⟨hmem, hdeep⟩, hinj⟩
      obtain rfl : k' = k := by simpa using hinj
      cases hfind : dictLookup d k' with
      | none => rw [hfind] at hdeep; simp at hdeep
      | some v =>
        rw [hfind] at hdeep
        exact ⟨v, (dictLookup_eq_some_iff hnodup).mp hfind, hdeep⟩
    · rintro ⟨v, hmem, hdeep⟩
      have hfind : dictLookup d k = some v := (dictLookup_eq_some_iff hnodup).mpr hmem
      refine ⟨k, ⟨?_, ?_⟩, rfl⟩
      · exact ⟨(k, v), hmem, rfl⟩
      · rw [hfind]
        exact hdeep
  · intro d x hx
    simp only [non_flat_keys, List.mem_map] at hx
    obtain ⟨p, _, hp⟩ := hx
    exact ⟨p, hp.symm⟩

/-- Witness for C7 at a concrete list and dict. -/
theorem non_flat_keys_exactly_compound_positions_witness :
    (Sum.inr 1 ∈ non_flat_keys (.list [.int 7, .list [], .str [97]])) ∧
      ((([([97], Value.int 1), ([98], Value.dict [])] : List (Key × Value)).map
          Prod.fst).Nodup) ∧
      (Sum.inl [98] ∈ non_flat_keys (.dict [([97], Value.int 1), ([98], Value.dict [])])) :=
  ⟨(non_flat_keys_exactly_compound_positions.1 [.int 7, .list [], .str [97]] 1).mpr
      ⟨by decide, rfl⟩,
    by decide,
    (non_flat_keys_exactly_compound_positions.2.2.1
        [([97], Value.int 1), ([98], Value.dict [])] [98] (by decide)).mpr
      ⟨Value.dict [], by simp, rfl⟩⟩

theorem packInt_ok_of_in_range {i : Int}
    (h : -9223372036854775808 ≤ i ∧ i < 18446744073709551616) :
    ∃ bs, packInt i = .ok bs := by
  cases he : packInt i with
  | ok bs => exact ⟨bs, rfl⟩
  | error e =>
    exfalso
    unfold packInt at he
    repeat' split at he
    all_goals first | exact Except.noConfusion he | omega

theorem packInt_err_of_out_of_range {i : Int}
    (h : i < -9223372036854775808 ∨ 18446744073709551616 ≤ i) :
    packInt i = .error .encodingError := by
  unfold packInt
  repeat' split at *
  all_goals first | rfl | omega

theorem packVal_ok_of_supported {v : Value} (h : isSupportedFlat v = true) :
    ∃ bs, packVal v = .ok bs := by
  cases v with
  | nil => exact ⟨_, rfl⟩
  | bool b => cases b <;> exact ⟨_, rfl⟩
  | int i =>
    simp only [isSupportedFlat, decide_eq_true_eq] at h
    exact packInt_ok_of_in_range h
  | float bits => exact ⟨_, rfl⟩
  | str s =>
    simp only [isSupportedFlat, decide_eq_true_eq] at h
    simp only [packVal, packStr]
    split_ifs <;> first | exact ⟨_, rfl⟩ | omega
  | bytes b =>
    simp only [isSupportedFlat, decide_eq_true_eq] at h
    simp only [packVal, packBin]
    split_ifs <;> first | exact ⟨_, rfl⟩ | omega
  | hash b =>
    simp only [isSupportedFlat, decide_eq_true_eq] at h
    simp only [packVal, packExt1]
    split_ifs <;> first | exact ⟨_, rfl⟩ | omega
  | ndset => simp [isSupportedFlat] at h
  | other => simp [isSupportedFlat] at h
  | list l => simp [isSupportedFlat] at h
  | dict d => simp [isSupportedFlat] at h

theorem packVal_err_of_unsupported {v : Value} (h : isUnsupportedLeaf v = true) :
    packVal v = .error .encodingError := by
  cases v with
  | int i =>
    simp only [isUnsupportedLeaf, decide_eq_true_eq] at h
    exact packInt_err_of_out_of_range h
  | ndset => rfl
  | other => rfl
  | nil => simp [isUnsupportedLeaf] at h
  | bool b => simp [isUnsupportedLeaf] at h
  | float bits => simp [isUnsupportedLeaf] at h
  | str s => simp [isUnsupportedLeaf] at h
  | bytes b => simp [isUnsupportedLeaf] at h
  | hash b => simp [isUnsupportedLeaf] at h
  | list l => simp [isUnsupportedLeaf] at h
  | dict d => simp [isUnsupportedLeaf] at h

/-- Characterization of `packList` on lists of flat leaves: an unsupported
leaf makes it fail with the `default`-hook error, and with none it
succeeds. -/
theorem packList_char (l : List Value)
    (h : ∀ v ∈ l, isSupportedFlat v = true ∨ isUnsupportedLeaf v = true) :
    ((∃ v ∈ l, isUnsupportedLeaf v = true) → packList l = .error .encodingError) ∧
      ((∀ v ∈ l, isUnsupportedLeaf v = false) → ∃ bs, packList l = .ok bs) := by
  induction l with
  | nil =>
    refine ⟨?_, ?_⟩
    · rintro ⟨v, hv, _⟩
      exact absurd hv (List.not_mem_nil v)
    · intro _
      exact ⟨_, rfl⟩
  | cons v vs ih =>
    have hv := h v (List.mem_cons_self v vs)
    have hrest := ih fun w hw => h w (List.mem_cons_of_mem v hw)
    refine ⟨?_, ?_⟩
    · rintro ⟨w, hw, hwuns⟩
      by_cases hvu : isUnsupportedLeaf v = true
      · simp [packList, packVal_err_of_unsupported hvu]
      · have hvs : isSupportedFlat v = true := hv.resolve_right hvu
        obtain ⟨bs, hbs⟩ := packVal_ok_of_supported hvs
        have hwvs : w ∈ vs := by
          rcases List.mem_cons.mp hw with rfl | hmem
          · exact absurd hwuns hvu
          · exact hmem
        have herr := hrest.1 ⟨w, hwvs, hwuns⟩
        simp [packList, hbs, herr]
    · intro hall
      have hvs : isSupportedFlat v = true :=
        hv.resolve_right (by simp [hall v (List.mem_cons_self v vs)])
      obtain ⟨bs, hbs⟩ := packVal_ok_of_supported hvs
      obtain ⟨rest, hrest'⟩ := hrest.2 fun w hw => hall w (List.mem_cons_of_mem v hw)
      exact ⟨bs ++ rest, by simp [packList, hbs, hrest']⟩

/-- Characterization of `packPairs` on pair lists with encodable keys and
flat leaf values (same shape as `packList_char`). -/
theorem packPairs_char (ps : List (Key × Value))
    (hk : ∀ p ∈ ps, p.1.length < 4294967296)
    (h : ∀ p ∈ ps, isSupportedFlat p.2 = true ∨ isUnsupportedLeaf p.2 = true) :
    ((∃ p ∈ ps, isUnsupportedLeaf p.2 = true) → packPairs ps = .error .encodingError) ∧
      ((∀ p ∈ ps, isUnsupportedLeaf p.2 = false) → ∃ bs, packPairs ps = .ok bs) := by
  induction ps with
  | nil =>
    refine ⟨?_, ?_⟩
    · rintro ⟨p, hp, _⟩
      exact absurd hp (List.not_mem_nil p)
    · intro _
      exact ⟨_, rfl⟩
  | cons p ps ih =>
    obtain ⟨k, v⟩ := p
    have hkv := h (k, v) (List.mem_cons_self _ _)
    have hkk := hk (k, v) (List.mem_cons_self _ _)
    obtain ⟨kb, hkb⟩ : ∃ kb, packStr k = .ok kb := by
      simp only [packStr]
      split_ifs <;> first | exact ⟨_, rfl⟩ | omega
    have hrest := ih (fun q hq => hk q (List.mem_cons_of_mem _ hq))
      (fun q hq => h q (List.mem_cons_of_mem _ hq))
    refine ⟨?_, ?_⟩
    · rintro ⟨q, hq, hquns⟩
      by_cases hvu : isUnsupportedLeaf v = true
      · simp [packPairs, hkb, packVal_err_of_unsupported hvu]
      · have hvs : isSupportedFlat v = true := hkv.resolve_right hvu
        obtain ⟨vb, hvb⟩ := packVal_ok_of_supported hvs
        have hqps : q ∈ ps := by
          rcases List.mem_cons.mp hq with rfl | hmem
          · exact absurd hquns hvu
          · exact hmem
        have herr := hrest.1 ⟨q, hqps, hquns⟩
        simp [packPairs, hkb, hvb, herr]
    · intro hall
      have hvs : isSupportedFlat v = true :=
        hkv.resolve_right (by simp [hall (k, v) (List.mem_cons_self _ _)])
      obtain ⟨vb, hvb⟩ := packVal_ok_of_supported hvs
      obtain ⟨rest, hrest'⟩ := hrest.2 fun q hq => hall q (List.mem_cons_of_mem _ hq)
      exact ⟨kb ++ vb ++ rest, by simp [packPairs, hkb, hvb, hrest']⟩

/-- The sha256 digest always has 32 bytes. -/
theorem sha256_length (msg : Bytes) : (sha256 msg).length = 32 := by
  simp [sha256, digestBytes, be32]

theorem arrayHeader_ok {n : Nat} (h : n < 4294967296) :
    ∃ hd, arrayHeader n = .ok hd := by
  cases he : arrayHeader n with
  | ok hd => exact ⟨hd, rfl⟩
  | error e =>
    exfalso
    unfold arrayHeader at he
    repeat' split at he
    all_goals first | exact Except.noConfusion he | omega

theorem mapHeader_ok {n : Nat} (h : n < 4294967296) :
    ∃ hd, mapHeader n = .ok hd := by
  cases he : mapHeader n with
  | ok hd => exact ⟨hd, rfl⟩
  | error e =>
    exfalso
    unfold mapHeader at he
    repeat' split at he
    all_goals first | exact Except.noConfusion he | omega

theorem packStr_ok {s : Bytes} (h : s.length < 4294967296) :
    ∃ bs, packStr s = .ok bs := by
  cases he : packStr s with
  | ok bs => exact ⟨bs, rfl⟩
  | error e =>
    exfalso
    simp only [packStr] at he
    repeat' split at he
    all_goals first | exact Except.noConfusion he | omega

theorem not_unsupported_of_supported {v : Value} (h : isSupportedFlat v = true) :
    isUnsupportedLeaf v = false := by
  cases v <;> simp_all [isSupportedFlat, isUnsupportedLeaf] <;> omega

/-- Characterization of hashing a list of flat leaves: it fails, and fails
with the `default`-hook encoding error, exactly when some leaf is
unsupported. -/
theorem hash_list_encodingError_iff (l : List Value) (hlen : l.length < 4294967296)
    (h : ∀ v ∈ l, isSupportedFlat v = true ∨ isUnsupportedLeaf v = true) :
    hash_flat_tree (.list l) = .error .encodingError ↔
      ∃ v ∈ l, isUnsupportedLeaf v = true := by
  obtain ⟨hd, hhd⟩ := arrayHeader_ok hlen
  by_cases hex : ∃ v ∈ l, isUnsupportedLeaf v = true
  · have herr := (packList_char l h).1 hex
    have : hash_flat_tree (.list l) = .error .encodingError := by
      simp [hash_flat_tree, _serialize_list, packVal, hhd, herr]
    exact iff_of_true this hex
  · have hall : ∀ v ∈ l, isUnsupportedLeaf v = false := by
      intro v hv
      cases hb : isUnsupportedLeaf v with
      | false => rfl
      | true => exact absurd ⟨v, hv, hb⟩ hex
    obtain ⟨bs, hbs⟩ := (packList_char l h).2 hall
    have : hash_flat_tree (.list l) = .ok ⟨sha256 (hd ++ bs)⟩ := by
      simp [hash_flat_tree, _serialize_list, packVal, hhd, hbs]
    exact iff_of_false (by simp [this]) hex

/-- Characterization of hashing a dict of flat leaves (same as for lists;
membership is transferred through the key sort). -/
theorem hash_dict_encodingError_iff (d : List (Key × Value))
    (hlen : d.length < 4294967296)
    (hk : ∀ p ∈ d, p.1.length < 4294967296)
    (h : ∀ p ∈ d, isSupportedFlat p.2 = true ∨ isUnsupportedLeaf p.2 = true) :
    hash_flat_tree (.dict d) = .error .encodingError ↔
      ∃ p ∈ d, isUnsupportedLeaf p.2 = true := by
  have hslen : (sortPairs d).length = d.length :=
    (List.perm_insertionSort keyLe d).length_eq
  obtain ⟨hd, hhd⟩ := mapHeader_ok (n := (sortPairs d).length) (by omega)
  have hmem : ∀ p, p ∈ sortPairs d ↔ p ∈ d := fun p =>
    (List.perm_insertionSort keyLe d).mem_iff
  have hks : ∀ p ∈ sortPairs d, p.1.length < 4294967296 := fun p hp =>
    hk p ((hmem p).mp hp)
  have hs : ∀ p ∈ sortPairs d,
      isSupportedFlat p.2 = true ∨ isUnsupportedLeaf p.2 = true := fun p hp =>
    h p ((hmem p).mp hp)
  by_cases hex : ∃ p ∈ d, isUnsupportedLeaf p.2 = true
  · obtain ⟨p, hp, hpu⟩ := hex
    have herr := (packPairs_char (sortPairs d) hks hs).1 ⟨p, (hmem p).mpr hp, hpu⟩
    have : hash_flat_tree (.dict d) = .error .encodingError := by
      simp [hash_flat_tree, _serialize_tree, hhd, herr]
    exact iff_of_true this ⟨p, hp, hpu⟩
  · have hall : ∀ p ∈ sortPairs d, isUnsupportedLeaf p.2 = false := by
      intro p hp
      cases hb : isUnsupportedLeaf p.2 with
      | false => rfl
      | true => exact absurd ⟨p, (hmem p).mp hp, hb⟩ hex
    obtain ⟨bs, hbs⟩ := (packPairs_char (sortPairs d) hks hs).2 hall
    have : hash_flat_tree (.dict d) = .ok ⟨sha256 (hd ++ bs)⟩ := by
      simp [hash_flat_tree, _serialize_tree, hhd, hbs]
    exact iff_of_false (by simp [this]) hex

/-- C3: on a tree of flat leaves (within msgpack's size ranges), hashing
fails with the encoding error — the `TypeError` of `msgpack_ext_default`,
the spec's `EncodingError` — exactly when some leaf value cannot be
canonically encoded (a `NonDeterministicSet`, another foreign object, or an
integer outside every msgpack format), and that is the only failure mode
for unsupported leaf content. -/
theorem hash_flat_tree_fails_with_encodingError_iff_unsupported_leaf :
    (∀ l : List Value, l.length < 4294967296 →
      (∀ v ∈ l, isSupportedFlat v = true ∨ isUnsupportedLeaf v = true) →
      (hash_flat_tree (.list l) = .error .encodingError ↔
        ∃ v ∈ l, isUnsupportedLeaf v = true)) ∧
      (∀ d : List (Key × Value), d.length < 4294967296 →
        (∀ p ∈ d, p.1.length < 4294967296) →
        (∀ p ∈ d, isSupportedFlat p.2 = true ∨ isUnsupportedLeaf p.2 = true) →
        (hash_flat_tree (.dict d) = .error .encodingError ↔
          ∃ p ∈ d, isUnsupportedLeaf p.2 = true)) :=
  ⟨hash_list_encodingError_iff, hash_dict_encodingError_iff⟩

/-- Witness for C3: a list holding a `NonDeterministicSet` leaf fails with
the encoding error; the analogous singleton dict does too. -/
theorem hash_flat_tree_fails_with_encodingError_iff_unsupported_leaf_witness :
    hash_flat_tree (.list [.int 3, .ndset]) = .error .encodingError ∧
      hash_flat_tree (.dict [([97], .ndset)]) = .error .encodingError :=
  ⟨(hash_flat_tree_fails_with_encodingError_iff_unsupported_leaf.1
        [.int 3, .ndset] (by decide)
        (by decide)).mpr
      ⟨.ndset, by simp, rfl⟩,
    (hash_flat_tree_fails_with_encodingError_iff_unsupported_leaf.2
        [([97], .ndset)] (by decide) (by decide)
        (by decide)).mpr
      ⟨([97], .ndset), by simp, rfl⟩⟩

/-- C10: `hash_flat_tree` raises its `TypeError` for every non-tree input
(flat leaves, `Hash` values, `NonDeterministicSet` values), and on a dict
or list of supported flat leaves it returns a `Hash` of exactly 32 bytes
(the sha256 digest size). -/
theorem hash_flat_tree_domain_and_digest_size :
    (∀ v : Value, isTreeValue v = false → hash_flat_tree v = .error .notATree) ∧
      (∀ l : List Value, l.length < 4294967296 →
        (∀ v ∈ l, isSupportedFlat v = true) →
        ∃ hsh : Hash, hash_flat_tree (.list l) = .ok hsh ∧ hsh.bytes.length = 32) ∧
      (∀ d : List (Key × Value), d.length < 4294967296 →
        (∀ p ∈ d, p.1.length < 4294967296) →
        (∀ p ∈ d, isSupportedFlat p.2 = true) →
        ∃ hsh : Hash, hash_flat_tree (.dict d) = .ok hsh ∧ hsh.bytes.length = 32) := by
  refine ⟨?_, ?_, ?_⟩
  · intro v hv
    cases v <;> first | rfl | simp [isTreeValue] at hv
  · intro l hlen hsup
    obtain ⟨hd, hhd⟩ := arrayHeader_ok hlen
    obtain ⟨bs, hbs⟩ := (packList_char l fun v hv => .inl (hsup v hv)).2
      fun v hv => not_unsupported_of_supported (hsup v hv)
    refine ⟨⟨sha256 (hd ++ bs)⟩, ?_, sha256_length _⟩
    simp [hash_flat_tree, _serialize_list, packVal, hhd, hbs]
  · intro d hlen hk hsup
    have hslen : (sortPairs d).length = d.length :=
      (List.perm_insertionSort keyLe d).length_eq
    obtain ⟨hd, hhd⟩ := mapHeader_ok (n := (sortPairs d).length) (by omega)
    have hmem : ∀ p, p ∈ sortPairs d ↔ p ∈ d := fun p =>
      (List.perm_insertionSort keyLe d).mem_iff
    obtain ⟨bs, hbs⟩ := (packPairs_char (sortPairs d)
        (fun p hp => hk p ((hmem p).mp hp))
        (fun p hp => .inl (hsup p ((hmem p).mp hp)))).2
      fun p hp => not_unsupported_of_supported (hsup p ((hmem p).mp hp))
    refine ⟨⟨sha256 (hd ++ bs)⟩, ?_, sha256_length _⟩
    simp [hash_flat_tree, _serialize_tree, hhd, hbs]

/-- Witness for C10: a `Hash` leaf is rejected at top level, and a small
flat list hashes to 32 bytes. -/
theorem hash_flat_tree_domain_and_digest_size_witness :
    hash_flat_tree (.hash [1, 2]) = .error .notATree ∧
      ∃ hsh : Hash, hash_flat_tree (.list [.int 1, .str [97]]) = .ok hsh ∧
        hsh.bytes.length = 32 :=
  ⟨hash_flat_tree_domain_and_digest_size.1 (.hash [1, 2]) rfl,
    hash_flat_tree_domain_and_digest_size.2.1 [.int 1, .str [97]] (by decide)
      (by decide)⟩

/-- Decoder equations at each literal head byte (definitional). -/
theorem unpackFlat_c0 (r : Bytes) : unpackFlat (0xc0 :: r) = some (.nil, r) := rfl

theorem unpackFlat_c2 (r : Bytes) : unpackFlat (0xc2 :: r) = some (.bool false, r) := rfl

theorem unpackFlat_c3 (r : Bytes) : unpackFlat (0xc3 :: r) = some (.bool true, r) := rfl

theorem unpackFlat_c4 (n : Nat) (r : Bytes) :
    unpackFlat (0xc4 :: n :: r) = some (.bytes (r.take n), r.drop n) := rfl

theorem unpackFlat_c5 (n1 n2 : Nat) (r : Bytes) :
    unpackFlat (0xc5 :: n1 :: n2 :: r) =
      some (.bytes (r.take (val16 n1 n2)), r.drop (val16 n1 n2)) := rfl

theorem unpackFlat_c6 (n1 n2 n3 n4 : Nat) (r : Bytes) :
    unpackFlat (0xc6 :: n1 :: n2 :: n3 :: n4 :: r) =
      some (.bytes (r.take (val32 n1 n2 n3 n4)), r.drop (val32 n1 n2 n3 n4)) := rfl

theorem unpackFlat_c7 (n : Nat) (r : Bytes) :
    unpackFlat (0xc7 :: n :: 1 :: r) = some (.hash (r.take n), r.drop n) := rfl

theorem unpackFlat_c8 (n1 n2 : Nat) (r : Bytes) :
    unpackFlat (0xc8 :: n1 :: n2 :: 1 :: r) =
      some (.hash (r.take (val16 n1 n2)), r.drop (val16 n1 n2)) := rfl

theorem unpackFlat_c9 (n1 n2 n3 n4 : Nat) (r : Bytes) :
    unpackFlat (0xc9 :: n1 :: n2 :: n3 :: n4 :: 1 :: r) =
      some (.hash (r.take (val32 n1 n2 n3 n4)), r.drop (val32 n1 n2 n3 n4)) := rfl

theorem unpackFlat_cb (b1 b2 b3 b4 b5 b6 b7 b8 : Nat) (r : Bytes) :
    unpackFlat (0xcb :: b1 :: b2 :: b3 :: b4 :: b5 :: b6 :: b7 :: b8 :: r) =
      some (.float (val64 b1 b2 b3 b4 b5 b6 b7 b8), r) := rfl

theorem unpackFlat_cc (n : Nat) (r : Bytes) :
    unpackFlat (0xcc :: n :: r) = some (.int n, r) := rfl

theorem unpackFlat_cd (n1 n2 : Nat) (r : Bytes) :
    unpackFlat (0xcd :: n1 :: n2 :: r) = some (.int (val16 n1 n2), r) := rfl

theorem unpackFlat_ce (n1 n2 n3 n4 : Nat) (r : Bytes) :
    unpackFlat (0xce :: n1 :: n2 :: n3 :: n4 :: r) =
      some (.int (val32 n1 n2 n3 n4), r) := rfl

theorem unpackFlat_cf (n1 n2 n3 n4 n5 n6 n7 n8 : Nat) (r : Bytes) :
    unpackFlat (0xcf :: n1 :: n2 :: n3 :: n4 :: n5 :: n6 :: n7 :: n8 :: r) =
      some (.int (val64 n1 n2 n3 n4 n5 n6 n7 n8), r) := rfl

theorem unpackFlat_d0 (n : Nat) (r : Bytes) :
    unpackFlat (0xd0 :: n :: r) = some (.int ((n : Int) - 256), r) := rfl

theorem unpackFlat_d1 (n1 n2 : Nat) (r : Bytes) :
    unpackFlat (0xd1 :: n1 :: n2 :: r) =
      some (.int ((val16 n1 n2 : Int) - 65536), r) := rfl

theorem unpackFlat_d2 (n1 n2 n3 n4 : Nat) (r : Bytes) :
    unpackFlat (0xd2 :: n1 :: n2 :: n3 :: n4 :: r) =
      some (.int ((val32 n1 n2 n3 n4 : Int) - 4294967296), r) := rfl

theorem unpackFlat_d3 (n1 n2 n3 n4 n5 n6 n7 n8 : Nat) (r : Bytes) :
    unpackFlat (0xd3 :: n1 :: n2 :: n3 :: n4 :: n5 :: n6 :: n7 :: n8 :: r) =
      some (.int ((val64 n1 n2 n3 n4 n5 n6 n7 n8 : Int) - 18446744073709551616), r) := rfl

theorem unpackFlat_d4 (r : Bytes) :
    unpackFlat (0xd4 :: 1 :: r) = some (.hash (r.take 1), r.drop 1) := rfl

theorem unpackFlat_d5 (r : Bytes) :
    unpackFlat (0xd5 :: 1 :: r) = some (.hash (r.take 2), r.drop 2) := rfl

theorem unpackFlat_d6 (r : Bytes) :
    unpackFlat (0xd6 :: 1 :: r) = some (.hash (r.take 4), r.drop 4) := rfl

theorem unpackFlat_d7 (r : Bytes) :
    unpackFlat (0xd7 :: 1 :: r) = some (.hash (r.take 8), r.drop 8) := rfl

theorem unpackFlat_d8 (r : Bytes) :
    unpackFlat (0xd8 :: 1 :: r) = some (.hash (r.take 16), r.drop 16) := rfl

theorem unpackFlat_d9 (n : Nat) (r : Bytes) :
    unpackFlat (0xd9 :: n :: r) = some (.str (r.take n), r.drop n) := rfl

theorem unpackFlat_da (n1 n2 : Nat) (r : Bytes) :
    unpackFlat (0xda :: n1 :: n2 :: r) =
      some (.str (r.take (val16 n1 n2)), r.drop (val16 n1 n2)) := rfl

theorem unpackFlat_db (n1 n2 n3 n4 : Nat) (r : Bytes) :
    unpackFlat (0xdb :: n1 :: n2 :: n3 :: n4 :: r) =
      some (.str (r.take (val32 n1 n2 n3 n4)), r.drop (val32 n1 n2 n3 n4)) := rfl

theorem unpackFlat_fixint {b : Nat} (hb : b < 128) (r : Bytes) :
    unpackFlat (b :: r) = some (.int b, r) := by
  simp only [unpackFlat]
  rw [if_pos hb]

theorem unpackFlat_negfixint {b : Nat} (hb : 0xe0 <= b) (r : Bytes) :
    unpackFlat (b :: r) = some (.int ((b : Int) - 256), r) := by
  simp only [unpackFlat]
  rw [if_neg (by omega), if_pos hb]

theorem unpackFlat_fixstr {n : Nat} (hn : n < 32) {s : Bytes} (hs : s.length = n)
    (r : Bytes) : unpackFlat ((0xa0 + n) :: (s ++ r)) = some (.str s, r) := by
  simp only [unpackFlat]
  rw [if_neg (by omega), if_neg (by omega), if_neg (by omega), if_pos (by omega)]
  have he : 160 + n - 160 = n := by omega
  rw [he, List.take_left' hs, List.drop_left' hs]

set_option maxHeartbeats 3200000 in
/-- Round trip: decoding an encoded flat value from the head of any stream
recovers the value and the rest of the stream. -/
theorem unpackFlat_packVal {v : Value} {bs : Bytes} (hwf : isFlatWF v = true)
    (hp : packVal v = .ok bs) (r : Bytes) :
    unpackFlat (bs ++ r) = some (v, r) := by
  cases v with
  | nil =>
    simp only [packVal, Except.ok.injEq] at hp
    subst hp
    simp [unpackFlat_c0]
  | bool b =>
    cases b <;>
      (simp only [packVal, Except.ok.injEq] at hp; subst hp;
        simp [unpackFlat_c2, unpackFlat_c3])
  | int i =>
    simp only [packVal] at hp
    unfold packInt at hp
    repeat' split at hp
    case _ =>
      simp only [Except.ok.injEq] at hp
      subst hp
      rename_i hc
      simp only [List.cons_append, List.nil_append]
      rw [unpackFlat_fixint (by omega)]
      simp only [Option.some.injEq, Prod.mk.injEq, Value.int.injEq, and_true]
      omega
    case _ =>
      simp only [Except.ok.injEq] at hp
      subst hp
      rename_i hc
      simp only [List.cons_append, List.nil_append]
      rw [unpackFlat_negfixint (by omega)]
      simp only [Option.some.injEq, Prod.mk.injEq, Value.int.injEq, and_true]
      omega
    case _ =>
      simp only [Except.ok.injEq] at hp
      subst hp
      rename_i hc
      simp only [List.cons_append, List.nil_append]
      rw [unpackFlat_cc]
      simp only [Option.some.injEq, Prod.mk.injEq, Value.int.injEq, and_true]
      omega
    case _ =>
      simp only [Except.ok.injEq] at hp
      subst hp
      rename_i hc
      simp only [be16, List.cons_append, List.nil_append, List.append_assoc]
      rw [unpackFlat_cd]
      simp only [val16, Option.some.injEq, Prod.mk.injEq, Value.int.injEq, and_true]
      omega
    case _ =>
      simp only [Except.ok.injEq] at hp
      subst hp
      rename_i hc
      simp only [be32, List.cons_append, List.nil_append, List.append_assoc]
      rw [unpackFlat_ce]
      simp only [val32, Option.some.injEq, Prod.mk.injEq, Value.int.injEq, and_true]
      omega
    case _ =>
      simp only [Except.ok.injEq] at hp
      subst hp
      rename_i hc
      simp only [be64, List.cons_append, List.nil_append, List.append_assoc]
      rw [unpackFlat_cf]
      simp only [val64, Option.some.injEq, Prod.mk.injEq, Value.int.injEq, and_true]
      omega
    case _ =>
      simp only [Except.ok.injEq] at hp
      subst hp
      rename_i hc
      simp only [List.cons_append, List.nil_append]
      rw [unpackFlat_d0]
      simp only [Option.some.injEq, Prod.mk.injEq, Value.int.injEq, and_true]
      omega
    case _ =>
      simp only [Except.ok.injEq] at hp
      subst hp
      rename_i hc
      simp only [be16, List.cons_append, List.nil_append, List.append_assoc]
      rw [unpackFlat_d1]
      simp only [val16, Option.some.injEq, Prod.mk.injEq, Value.int.injEq, and_true]
      omega
    case _ =>
      simp only [Except.ok.injEq] at hp
      subst hp
      rename_i hc
      simp only [be32, List.cons_append, List.nil_append, List.append_assoc]
      rw [unpackFlat_d2]
      simp only [val32, Option.some.injEq, Prod.mk.injEq, Value.int.injEq, and_true]
      omega
    case _ =>
      simp only [Except.ok.injEq] at hp
      subst hp
      rename_i hc
      simp only [be64, List.cons_append, List.nil_append, List.append_assoc]
      rw [unpackFlat_d3]
      simp only [val64, Option.some.injEq, Prod.mk.injEq, Value.int.injEq, and_true]
      omega
    case _ => exact Except.noConfusion hp
  | float bits =>
    simp only [isFlatWF, decide_eq_true_eq] at hwf
    simp only [packVal, Except.ok.injEq] at hp
    subst hp
    simp only [be64, List.cons_append, List.nil_append, List.append_assoc]
    rw [unpackFlat_cb]
    simp only [val64, Option.some.injEq, Prod.mk.injEq, Value.float.injEq, and_true]
    omega
  | str s =>
    simp only [packVal, packStr] at hp
    repeat' split at hp
    case _ =>
      simp only [Except.ok.injEq] at hp
      subst hp
      rename_i hc
      simp only [List.cons_append]
      rw [unpackFlat_fixstr hc rfl]
    case _ =>
      simp only [Except.ok.injEq] at hp
      subst hp
      simp only [List.cons_append, List.nil_append, List.append_assoc]
      rw [unpackFlat_d9, List.take_left, List.drop_left]
    case _ =>
      simp only [Except.ok.injEq] at hp
      subst hp
      rename_i hc
      simp only [be16, List.cons_append, List.nil_append, List.append_assoc]
      rw [unpackFlat_da]
      have hv : val16 (s.length / 256 % 256) (s.length % 256) = s.length := by
        simp only [val16]
        omega
      rw [hv, List.take_left, List.drop_left]
    case _ =>
      simp only [Except.ok.injEq] at hp
      subst hp
      rename_i hc
      simp only [be32, List.cons_append, List.nil_append, List.append_assoc]
      rw [unpackFlat_db]
      have hv : val32 (s.length / 16777216 % 256) (s.length / 65536 % 256)
          (s.length / 256 % 256) (s.length % 256) = s.length := by
        simp only [val32]
        omega
      rw [hv, List.take_left, List.drop_left]
    case _ => exact Except.noConfusion hp
  | bytes b =>
    simp only [packVal, packBin] at hp
    repeat' split at hp
    case _ =>
      simp only [Except.ok.injEq] at hp
      subst hp
      simp only [List.cons_append, List.nil_append, List.append_assoc]
      rw [unpackFlat_c4, List.take_left, List.drop_left]
    case _ =>
      simp only [Except.ok.injEq] at hp
      subst hp
      rename_i hc
      simp only [be16, List.cons_append, List.nil_append, List.append_assoc]
      rw [unpackFlat_c5]
      have hv : val16 (b.length / 256 % 256) (b.length % 256) = b.length := by
        simp only [val16]
        omega
      rw [hv, List.take_left, List.drop_left]
    case _ =>
      simp only [Except.ok.injEq] at hp
      subst hp
      rename_i hc
      simp only [be32, List.cons_append, List.nil_append, List.append_assoc]
      rw [unpackFlat_c6]
      have hv : val32 (b.length / 16777216 % 256) (b.length / 65536 % 256)
          (b.length / 256 % 256) (b.length % 256) = b.length := by
        simp only [val32]
        omega
      rw [hv, List.take_left, List.drop_left]
    case _ => exact Except.noConfusion hp
  | hash b =>
    simp only [packVal, packExt1] at hp
    repeat' split at hp
    case _ =>
      simp only [Except.ok.injEq] at hp
      subst hp
      rename_i hc
      simp only [List.cons_append, List.nil_append, List.append_assoc]
      rw [unpackFlat_d4, List.take_left' hc, List.drop_left' hc]
    case _ =>
      simp only [Except.ok.injEq] at hp
      subst hp
      rename_i hc
      simp only [List.cons_append, List.nil_append, List.append_assoc]
      rw [unpackFlat_d5, List.take_left' hc, List.drop_left' hc]
    case _ =>
      simp only [Except.ok.injEq] at hp
      subst hp
      rename_i hc
      simp only [List.cons_append, List.nil_append, List.append_assoc]
      rw [unpackFlat_d6, List.take_left' hc, List.drop_left' hc]
    case _ =>
      simp only [Except.ok.injEq] at hp
      subst hp
      rename_i hc
      simp only [List.cons_append, List.nil_append, List.append_assoc]
      rw [unpackFlat_d7, List.take_left' hc, List.drop_left' hc]
    case _ =>
      simp only [Except.ok.injEq] at hp
      subst hp
      rename_i hc
      simp only [List.cons_append, List.nil_append, List.append_assoc]
      rw [unpackFlat_d8, List.take_left' hc, List.drop_left' hc]
    case _ =>
      simp only [Except.ok.injEq] at hp
      subst hp
      simp only [List.cons_append, List.nil_append, List.append_assoc]
      rw [unpackFlat_c7, List.take_left, List.drop_left]
    case _ =>
      simp only [Except.ok.injEq] at hp
      subst hp
      rename_i hc
      simp only [be16, List.cons_append, List.nil_append, List.append_assoc]
      rw [unpackFlat_c8]
      have hv : val16 (b.length / 256 % 256) (b.length % 256) = b.length := by
        simp only [val16]
        omega
      rw [hv, List.take_left, List.drop_left]
    case _ =>
      simp only [Except.ok.injEq] at hp
      subst hp
      rename_i hc
      simp only [be32, List.cons_append, List.nil_append, List.append_assoc]
      rw [unpackFlat_c9]
      have hv : val32 (b.length / 16777216 % 256) (b.length / 65536 % 256)
          (b.length / 256 % 256) (b.length % 256) = b.length := by
        simp only [val32]
        omega
      rw [hv, List.take_left, List.drop_left]
    case _ => exact Except.noConfusion hp
  | ndset => simp [isFlatWF] at hwf
  | other => simp [isFlatWF] at hwf
  | list l => simp [isFlatWF] at hwf
  | dict d => simp [isFlatWF] at hwf

/-- The msgpack encoding of a flat value is prefix-determined: if two
encodings agree as prefixes of one byte stream, the values and the rests
agree. -/
theorem packVal_prefix_determined {v1 v2 : Value} {b1 b2 r1 r2 : Bytes}
    (h1wf : isFlatWF v1 = true) (h2wf : isFlatWF v2 = true)
    (hp1 : packVal v1 = .ok b1) (hp2 : packVal v2 = .ok b2)
    (heq : b1 ++ r1 = b2 ++ r2) : v1 = v2 ∧ r1 = r2 := by
  have u1 := unpackFlat_packVal h1wf hp1 r1
  have u2 := unpackFlat_packVal h2wf hp2 r2
  rw [heq, u2] at u1
  have hpair := Option.some.inj u1
  exact ⟨(congrArg Prod.fst hpair).symm, (congrArg Prod.snd hpair).symm⟩

/-- `packList` is injective on equal-length lists of well-formed flat
values. -/
theorem packList_inj : ∀ {l1 l2 : List Value}, (∀ v ∈ l1, isFlatWF v = true) →
    (∀ v ∈ l2, isFlatWF v = true) → ∀ {b1 b2 : Bytes},
    packList l1 = .ok b1 → packList l2 = .ok b2 → b1 = b2 →
    l1.length = l2.length → l1 = l2 := by
  intro l1
  induction l1 with
  | nil =>
    intro l2 _ _ b1 b2 _ _ _ hlen
    cases l2 with
    | nil => rfl
    | cons w ws => simp at hlen
  | cons v vs ih =>
    intro l2 h1 h2 b1 b2 hp1 hp2 hb hlen
    cases l2 with
    | nil => simp at hlen
    | cons w ws =>
      cases hv : packVal v with
      | error e =>
        unfold packList at hp1
        rw [hv] at hp1
        exact Except.noConfusion hp1
      | ok bv =>
        cases hvs : packList vs with
        | error e =>
          unfold packList at hp1
          rw [hv, hvs] at hp1
          exact Except.noConfusion hp1
        | ok brest =>
          cases hw : packVal w with
          | error e =>
            unfold packList at hp2
            rw [hw] at hp2
            exact Except.noConfusion hp2
          | ok bw =>
            cases hws : packList ws with
            | error e =>
              unfold packList at hp2
              rw [hw, hws] at hp2
              exact Except.noConfusion hp2
            | ok brest2 =>
              unfold packList at hp1 hp2
              rw [hv, hvs] at hp1
              rw [hw, hws] at hp2
              simp only [Except.ok.injEq] at hp1 hp2
              subst hp1
              subst hp2
              obtain ⟨hvw, hr⟩ := packVal_prefix_determined
                (h1 v (List.mem_cons_self v vs)) (h2 w (List.mem_cons_self w ws))
                hv hw hb
              subst hvw
              have hvsws : vs = ws := ih
                (fun x hx => h1 x (List.mem_cons_of_mem v hx))
                (fun x hx => h2 x (List.mem_cons_of_mem v hx))
                hvs hws hr (by simpa using hlen)
              rw [hvsws]

/-- C6: Hashing a sequence node is positional.  Two flat lists equal
element-by-element in the same positions get the same `Hash`; and two flat
lists holding the same elements in genuinely different orders always have
different serializations (`_serialize_list`). -/
theorem serialize_list_positional :
    (∀ l1 l2 : List Value, List.Forall₂ Eq l1 l2 →
      hash_flat_tree (.list l1) = hash_flat_tree (.list l2)) ∧
      (∀ l1 l2 : List Value, (∀ v ∈ l1, isFlatWF v = true) →
        (∀ v ∈ l2, isFlatWF v = true) → l1.Perm l2 → l1 ≠ l2 →
        ∀ b1 b2 : Bytes, _serialize_list l1 = .ok b1 →
          _serialize_list l2 = .ok b2 → b1 ≠ b2) := by
  constructor
  · intro l1 l2 hf
    have : l1 = l2 := by
      rw [← List.forall₂_eq_eq_eq]
      exact hf
    rw [this]
  · intro l1 l2 h1 h2 hperm hne b1 b2 hs1 hs2 hbeq
    apply hne
    have hlen : l1.length = l2.length := hperm.length_eq
    unfold _serialize_list packVal at hs1 hs2
    cases hhd : arrayHeader l1.length with
    | error e =>
      rw [hhd] at hs1
      exact Except.noConfusion hs1
    | ok hd =>
      cases hl1 : packList l1 with
      | error e =>
        rw [hhd, hl1] at hs1
        exact Except.noConfusion hs1
      | ok body1 =>
        have hhd2 : arrayHeader l2.length = .ok hd := by
          rw [← hlen]
          exact hhd
        cases hl2 : packList l2 with
        | error e =>
          rw [hhd2, hl2] at hs2
          exact Except.noConfusion hs2
        | ok body2 =>
          rw [hhd, hl1] at hs1
          rw [hhd2, hl2] at hs2
          simp only [Except.ok.injEq] at hs1 hs2
          subst hs1
          subst hs2
          have hbody : body1 = body2 := List.append_cancel_left hbeq
          exact packList_inj h1 h2 hl1 hl2 hbody hlen

/-- Witness for C6: `[1, 2]` and `[2, 1]` are permutations with different
serializations; equal lists hash equal. -/
theorem serialize_list_positional_witness :
    hash_flat_tree (.list [.int 1, .int 2]) = hash_flat_tree (.list [.int 1, .int 2]) ∧
      ([146, 1, 2] : Bytes) ≠ [146, 2, 1] :=
  ⟨serialize_list_positional.1 [.int 1, .int 2] [.int 1, .int 2]
      (by exact List.forall₂_same.mpr fun x _ => rfl),
    serialize_list_positional.2 [.int 1, .int 2] [.int 2, .int 1]
      (by decide) (by decide) (List.Perm.swap _ _ _) (by simp)
      [146, 1, 2] [146, 2, 1] rfl rfl⟩

/-! ### C2: a node's hash is a pure function of flat values and child
hashes -/

theorem substList_congr {l1 l2 : List Value} (hf : List.Forall₂ AgreeVal l1 l2) :
    substList l1 = substList l2 := by
  induction hf with
  | nil => rfl
  | cons hpq hrest ih =>
    rcases hpq with ⟨hfa, hfb, heq⟩ | ⟨hda, hdb, hh⟩
    · subst heq
      simp [substList, hfa, ih]
    · simp [substList, hda, hdb, hh, ih]

theorem substPairs_congr {d1 d2 : List (Key × Value)}
    (hf : List.Forall₂ AgreePair d1 d2) : substPairs d1 = substPairs d2 := by
  induction hf with
  | nil => rfl
  | cons hpq hrest ih =>
    rename_i p q l1 l2
    obtain ⟨pk, pv⟩ := p
    obtain ⟨qk, qv⟩ := q
    obtain ⟨hk, hv⟩ := hpq
    simp only at hk
    subst hk
    rcases hv with ⟨hfa, hfb, heq⟩ | ⟨hda, hdb, hh⟩
    · simp only at heq
      subst heq
      simp [substPairs, hfa, ih]
    · simp [substPairs, hda, hdb, hh, ih]

/-- C2: a node's hash is a pure function of its flat leaf values plus the
Hashes substituted for its compound children — never of the children's raw
content.  Two mapping (or sequence) nodes whose positions agree on every
flat value and on the subtree hash at every compound position receive the
same hash; and replacing the entry at one position of a mapping leaves the
sibling entry — and hence its subtree hash — unchanged. -/
theorem hashTree_pure_function_of_flat_values_and_child_hashes :
    (∀ d1 d2 : List (Key × Value), List.Forall₂ AgreePair d1 d2 →
      hashTree (.dict d1) = hashTree (.dict d2)) ∧
      (∀ l1 l2 : List Value, List.Forall₂ AgreeVal l1 l2 →
        hashTree (.list l1) = hashTree (.list l2)) ∧
      (∀ (d : List (Key × Value)) (i j : Nat) (p : Key × Value)
        (hj : j < d.length) (hj2 : j < (d.set i p).length), j ≠ i →
        hashTree ((d.set i p).get ⟨j, hj2⟩).2 = hashTree (d.get ⟨j, hj⟩).2) := by
  refine ⟨?_, ?_, ?_⟩
  · intro d1 d2 hf
    simp only [hashTree, substPairs_congr hf]
  · intro l1 l2 hf
    simp only [hashTree, substList_congr hf]
  · intro d i j p hj hj2 hne
    have : (d.set i p).get ⟨j, hj2⟩ = d.get ⟨j, hj⟩ := by
      simp [List.getElem_set_ne (fun he => hne he.symm)]
    rw [this]

/-- Witness for C2 at a concrete mapping with one flat and one compound
entry. -/
theorem hashTree_pure_function_of_flat_values_and_child_hashes_witness :
    List.Forall₂ AgreePair
        [([97], Value.int 1), ([98], Value.list [.int 5])]
        [([97], Value.int 1), ([98], Value.list [.int 5])] ∧
      hashTree (.dict [([97], Value.int 1), ([98], Value.list [.int 5])]) =
        hashTree (.dict [([97], Value.int 1), ([98], Value.list [.int 5])]) ∧
      hashTree ((([([97], Value.int 1), ([98], Value.list [.int 5])].set 0
            ([97], Value.int 2)).get ⟨1, by decide⟩).2) =
        hashTree (([([97], Value.int 1), ([98], Value.list [.int 5])].get
            ⟨1, by decide⟩).2) :=
  ⟨.cons ⟨rfl, Or.inl ⟨rfl, rfl, rfl⟩⟩ (.cons ⟨rfl, Or.inr ⟨rfl, rfl, rfl⟩⟩ .nil),
    hashTree_pure_function_of_flat_values_and_child_hashes.1 _ _
      (.cons ⟨rfl, Or.inl ⟨rfl, rfl, rfl⟩⟩ (.cons ⟨rfl, Or.inr ⟨rfl, rfl, rfl⟩⟩ .nil)),
    hashTree_pure_function_of_flat_values_and_child_hashes.2.2
      [([97], Value.int 1), ([98], Value.list [.int 5])] 0 1 ([97], Value.int 2)
      (by decide) (by decide) (by decide)⟩

/-! ### The distinct ext tag for embedded hashes (supporting C5) -/

/-- Equal serializations of equal-length flat lists come from equal
lists. -/
theorem serialize_list_inj {l1 l2 : List Value}
    (h1w : ∀ v ∈ l1, isFlatWF v = true) (h2w : ∀ v ∈ l2, isFlatWF v = true)
    (hlen : l1.length = l2.length) {b1 b2 : Bytes}
    (h1 : _serialize_list l1 = .ok b1) (h2 : _serialize_list l2 = .ok b2)
    (hbeq : b1 = b2) : l1 = l2 := by
  unfold _serialize_list packVal at h1 h2
  cases hhd : arrayHeader l1.length with
  | error e =>
    rw [hhd] at h1
    exact Except.noConfusion h1
  | ok hd =>
    have hhd2 : arrayHeader l2.length = .ok hd := by
      rw [← hlen]
      exact hhd
    cases hl1 : packList l1 with
    | error e =>
      rw [hhd, hl1] at h1
      exact Except.noConfusion h1
    | ok body1 =>
      cases hl2 : packList l2 with
      | error e =>
        rw [hhd2, hl2] at h2
        exact Except.noConfusion h2
      | ok body2 =>
        rw [hhd, hl1] at h1
        rw [hhd2, hl2] at h2
        simp only [Except.ok.injEq] at h1 h2
        subst h1
        subst h2
        exact packList_inj h1w h2w hl1 hl2 (List.append_cancel_left hbeq) hlen

/-- The distinct ext tag at work: a flat list holding `Hash(b)` at some
position and the same list holding the raw bytes `b` there always
serialize differently.  (The spec's hash-level reading — that the sha256
digests of the two serializations also differ for every `b` — additionally
needs collision-freeness of sha256 on these input pairs, a cryptographic
assumption that is not decidable in this embedding.) -/
theorem serialize_list_hash_tag_distinct (p s : List Value) (b : Bytes)
    (hp : ∀ v ∈ p, isFlatWF v = true) (hs : ∀ v ∈ s, isFlatWF v = true)
    {b1 b2 : Bytes}
    (h1 : _serialize_list (p ++ [.hash b] ++ s) = .ok b1)
    (h2 : _serialize_list (p ++ [.bytes b] ++ s) = .ok b2) : b1 ≠ b2 := by
  intro hbeq
  have hw1 : ∀ v ∈ p ++ [.hash b] ++ s, isFlatWF v = true := by
    intro v hv
    rcases List.mem_append.mp hv with hv | hv
    · rcases List.mem_append.mp hv with hv | hv
      · exact hp v hv
      · rw [List.mem_singleton.mp hv]
        rfl
    · exact hs v hv
  have hw2 : ∀ v ∈ p ++ [.bytes b] ++ s, isFlatWF v = true := by
    intro v hv
    rcases List.mem_append.mp hv with hv | hv
    · rcases List.mem_append.mp hv with hv | hv
      · exact hp v hv
      · rw [List.mem_singleton.mp hv]
        rfl
    · exact hs v hv
  have hll := serialize_list_inj hw1 hw2 (by simp) h1 h2 hbeq
  rw [List.append_assoc, List.append_assoc] at hll
  have hmid := List.append_cancel_left hll
  simp at hmid

/-- Witness-style instance of the supporting result at `b = [7]`. -/
theorem serialize_list_hash_tag_distinct_witness :
    _serialize_list [.hash [7]] = .ok [145, 212, 1, 7] ∧
      _serialize_list [.bytes [7]] = .ok [145, 196, 1, 7] ∧
      ([145, 212, 1, 7] : Bytes) ≠ [145, 196, 1, 7] :=
  ⟨rfl, rfl,
    serialize_list_hash_tag_distinct [] [] [7] (by decide) (by decide) rfl rfl⟩

/-! ### C8 and C9: the evaluator runs of `test_multi_eval` and
`test_assert_fail` -/

/-- C8 (spec-modelled evaluator): one process of two ordered steps — set
`foo` to "b", then assert it equals "b" and set it to "a" — over one
object: `evaluate` with any step bound of at least 4 terminates normally
with exactly 3 distinct configurations (initial, after step 1, after
step 2). -/
theorem evaluate_sequential_two_steps_three_states {b : Nat} (hb : 4 ≤ b) :
    evaluate [[step_set_b, step_assert_b_set_a]] b = .ok ⟨3⟩ := by
  obtain ⟨n, rfl⟩ : ∃ n, b = n + 4 := ⟨b - 4, by omega⟩
  rfl

/-- Witness for C8 at the test's bound `steps = 4`. -/
theorem evaluate_sequential_two_steps_three_states_witness :
    4 ≤ 4 ∧ evaluate [[step_set_b, step_assert_b_set_a]] 4 = .ok ⟨3⟩ :=
  ⟨by decide, evaluate_sequential_two_steps_three_states (by decide)⟩

/-- C9 (spec-modelled evaluator): two independent single-step processes —
one sets `foo` to "b", the other asserts `foo == "b"` — over one shared
object: under any positive bound (so in particular 4, which permits both
orderings), `evaluate` propagates the assertion violation instead of
returning, because expanding the initial configuration runs the asserting
process on the unset attribute. -/
theorem evaluate_interleaving_raises_assert {b : Nat} (hb : 1 ≤ b) :
    evaluate [[step_set_b], [step_assert_b]] b = .error () := by
  obtain ⟨n, rfl⟩ : ∃ n, b = n + 1 := ⟨b - 1, by omega⟩
  rfl

/-- Witness for C9 at the test's bound `steps = 4`. -/
theorem evaluate_interleaving_raises_assert_witness :
    1 ≤ 4 ∧ evaluate [[step_set_b], [step_assert_b]] 4 = .error () :=
  ⟨by decide, evaluate_interleaving_raises_assert (by decide)⟩

end Timewinder
